import Mathlib

/-!
Verification of the CS4730 repository against its design specification.

Part I models the single-decree Paxos consensus engine. The repository ships
only the engine's architecture notes (src/unnamed/part_005); the C sources of
the engine itself are not in the tree, so the Paxos definitions below are
modelled from the specification (spec.md §3, §4, §8) and clearly marked as
such. Part II models the heartbeat peer program, translated directly from
src/hw2/test1/peer.c and src/unnamed/part_000.
-/

/-- Values proposed and chosen by the protocol; the spec treats them as an
opaque payload, modelled here as natural numbers. -/
abbrev Value := Nat

/-- Modelled from the spec: a `ProposalNumber` is a totally ordered pair
`(counter, proposer_id)` (spec.md §3); the engine's own sources are missing
from the tree. -/
abbrev Ballot := Nat × Nat

/-- Modelled from the spec: comparison of proposal numbers, primary key
`counter`, secondary key `proposer_id` (spec.md §3). -/
def ballotLt (x y : Ballot) : Prop :=
  x.1 < y.1 ∨ (x.1 = y.1 ∧ x.2 < y.2)

instance (x y : Ballot) : Decidable (ballotLt x y) := by
  unfold ballotLt; exact inferInstance

/-- Non-strict comparison of proposal numbers. -/
def ballotLe (x y : Ballot) : Prop :=
  ballotLt x y ∨ x = y

instance (x y : Ballot) : Decidable (ballotLe x y) := by
  unfold ballotLe; exact inferInstance

theorem ballotLt_irrefl (x : Ballot) : ¬ ballotLt x x := by
  obtain ⟨a, b⟩ := x; simp [ballotLt]

theorem ballotLt_trans {x y z : Ballot} (h1 : ballotLt x y) (h2 : ballotLt y z) :
    ballotLt x z := by
  obtain ⟨a, b⟩ := x; obtain ⟨c, d⟩ := y; obtain ⟨e, f⟩ := z
  simp only [ballotLt] at *; omega

theorem ballotLe_trans {x y z : Ballot} (h1 : ballotLe x y) (h2 : ballotLe y z) :
    ballotLe x z := by
  rcases h1 with h1 | rfl
  · rcases h2 with h2 | rfl
    · exact Or.inl (ballotLt_trans h1 h2)
    · exact Or.inl h1
  · exact h2

theorem ballotLt_of_le_of_lt {x y z : Ballot} (h1 : ballotLe x y) (h2 : ballotLt y z) :
    ballotLt x z := by
  rcases h1 with h1 | rfl
  · exact ballotLt_trans h1 h2
  · exact h2

theorem ballotLt_of_lt_of_le {x y z : Ballot} (h1 : ballotLt x y) (h2 : ballotLe y z) :
    ballotLt x z := by
  rcases h2 with h2 | rfl
  · exact ballotLt_trans h1 h2
  · exact h1

theorem ballotLe_total (x y : Ballot) : ballotLe x y ∨ ballotLe y x := by
  obtain ⟨a, b⟩ := x; obtain ⟨c, d⟩ := y
  simp only [ballotLe, ballotLt, Prod.mk.injEq]
  omega

theorem ballotLt_not_le {x y : Ballot} (h : ballotLt x y) : ¬ ballotLe y x := by
  rintro (h' | rfl)
  · exact ballotLt_irrefl _ (ballotLt_trans h h')
  · exact ballotLt_irrefl _ h

theorem ballotLe_refl (x : Ballot) : ballotLe x x := Or.inr rfl

theorem ballotLt_wf : WellFounded (fun x y : Ballot => ballotLt x y) := by
  have hsub : Subrelation (fun x y : Ballot => ballotLt x y)
      (Prod.Lex (· < · : Nat → Nat → Prop) (· < · : Nat → Nat → Prop)) := by
    intro x y h
    obtain ⟨a, b⟩ := x; obtain ⟨c, d⟩ := y
    rcases h with h | ⟨rfl, h⟩
    · exact Prod.Lex.left _ _ h
    · exact Prod.Lex.right _ h
  exact Subrelation.wf hsub (WellFounded.prod_lex (Nat.lt_wfRel.wf) (Nat.lt_wfRel.wf))

/-- Relation on an optional promised number and a proposal number: the
condition under which `onPrepare(n)` succeeds, namely `n > promised_number`,
where an unset promise (`none`) is ordered below every real number. -/
def promOk (p : Option Ballot) (n : Ballot) : Prop :=
  match p with
  | none => True
  | some b => ballotLt b n

instance (p : Option Ballot) (n : Ballot) : Decidable (promOk p n) := by
  unfold promOk; exact match p with
  | none => inferInstance
  | some _ => inferInstance

/-- Relation on an optional promised number and a proposal number: the
condition under which `onAccept(n, v)` applies, namely `n ≥ promised_number`,
with an unset promise below everything. -/
def accOk (p : Option Ballot) (n : Ballot) : Prop :=
  match p with
  | none => True
  | some b => ballotLe b n

instance (p : Option Ballot) (n : Ballot) : Decidable (accOk p n) := by
  unfold accOk; exact match p with
  | none => inferInstance
  | some _ => inferInstance

/-- Non-strict order on optional proposal numbers, `none` at the bottom;
used to state monotonicity of `promised_number`. -/
def promLe (p q : Option Ballot) : Prop :=
  match p, q with
  | none, _ => True
  | some _, none => False
  | some a, some b => ballotLe a b

instance (p q : Option Ballot) : Decidable (promLe p q) := by
  unfold promLe; exact match p, q with
  | none, _ => inferInstance
  | some _, none => inferInstance
  | some _, some _ => inferInstance

theorem promLe_refl (p : Option Ballot) : promLe p p := by
  cases p with
  | none => trivial
  | some b => exact ballotLe_refl b

theorem promLe_trans {p q r : Option Ballot} (h1 : promLe p q) (h2 : promLe q r) :
    promLe p r := by
  cases p with
  | none => trivial
  | some a =>
    cases q with
    | none => exact absurd h1 (by simp [promLe])
    | some b =>
      cases r with
      | none => exact absurd h2 (by simp [promLe])
      | some c => exact ballotLe_trans h1 h2

/-- Modelled from the spec: the `AcceptorRecord`, the only persisted state of
a node (spec.md §3): highest proposal promised, last proposal accepted, and
its value; all initially unset. -/
structure AcceptorRecord where
  promised_number : Option Ballot
  accepted_number : Option Ballot
  accepted_value : Option Value
deriving DecidableEq, Repr

/-- The initial acceptor record: nothing promised, nothing accepted. -/
def AcceptorRecord.init : AcceptorRecord := ⟨none, none, none⟩

/-- Reply of the Prepare handler: a PrepareAck carrying
`(n, accepted_number, accepted_value)`, or silence (rejection folded into
silence per spec.md §4.1, §6). -/
inductive PrepareReply where
  | ack (n : Ballot) (accepted_number : Option Ballot) (accepted_value : Option Value)
  | silence
deriving DecidableEq, Repr

/-- Reply of the Accept handler: AcceptAck(n) or silence. -/
inductive AcceptReply where
  | ack (n : Ballot)
  | silence
deriving DecidableEq, Repr

/-- Modelled from the spec: `onPrepare(n)` (spec.md §4.1). If
`n > promised_number`, set `promised_number = n` and reply PrepareAck with
`(n, accepted_number, accepted_value)`; otherwise leave the record unchanged
and stay silent. The engine's C sources are missing from the tree. -/
def onPrepare (n : Ballot) (r : AcceptorRecord) : AcceptorRecord × PrepareReply :=
  if promOk r.promised_number n then
    ({ r with promised_number := some n },
     PrepareReply.ack n r.accepted_number r.accepted_value)
  else
    (r, PrepareReply.silence)

/-- Modelled from the spec: `onAccept(n, v)` (spec.md §4.1). If
`n ≥ promised_number`, set `promised_number = n`, `accepted_number = n`,
`accepted_value = v` and reply AcceptAck(n); otherwise leave the record
unchanged and stay silent. -/
def onAccept (n : Ballot) (v : Value) (r : AcceptorRecord) : AcceptorRecord × AcceptReply :=
  if accOk r.promised_number n then
    ({ promised_number := some n, accepted_number := some n, accepted_value := some v },
     AcceptReply.ack n)
  else
    (r, AcceptReply.silence)

theorem onPrepare_pos {n : Ballot} {r : AcceptorRecord} (h : promOk r.promised_number n) :
    onPrepare n r = ({ r with promised_number := some n },
      PrepareReply.ack n r.accepted_number r.accepted_value) := by
  simp [onPrepare, h]

theorem onPrepare_neg {n : Ballot} {r : AcceptorRecord} (h : ¬ promOk r.promised_number n) :
    onPrepare n r = (r, PrepareReply.silence) := by
  simp [onPrepare, h]

theorem onAccept_pos {n : Ballot} {v : Value} {r : AcceptorRecord}
    (h : accOk r.promised_number n) :
    onAccept n v r = (⟨some n, some n, some v⟩, AcceptReply.ack n) := by
  simp [onAccept, h]

theorem onAccept_neg {n : Ballot} {v : Value} {r : AcceptorRecord}
    (h : ¬ accOk r.promised_number n) :
    onAccept n v r = (r, AcceptReply.silence) := by
  simp [onAccept, h]

/-- A single acceptor-side operation: delivery of a Prepare or an Accept. -/
inductive AOp where
  | prepare (n : Ballot)
  | accept (n : Ballot) (v : Value)
deriving DecidableEq, Repr

/-- The acceptor record after applying one operation (the handler's state
effect, discarding the reply). -/
def applyAOp (r : AcceptorRecord) (op : AOp) : AcceptorRecord :=
  match op with
  | AOp.prepare n => (onPrepare n r).1
  | AOp.accept n v => (onAccept n v r).1

/-- The acceptor record after applying a sequence of operations in order. -/
def applyAOps (r : AcceptorRecord) (ops : List AOp) : AcceptorRecord :=
  ops.foldl applyAOp r

/-- Modelled from the spec: majority threshold for a total acceptor count
`N` (spec.md §4.3); natural-number division is the floor. -/
def quorumThreshold (N : Nat) : Nat := N / 2 + 1

/-- Modelled from the spec: the QuorumTracker counts distinct acceptor
identities, not message arrivals (spec.md §4.3). -/
structure QuorumTracker where
  acks : List Nat
deriving DecidableEq, Repr

/-- Record an acknowledgement from acceptor `a`: ignored when `a` has
already been counted. -/
def QuorumTracker.add (t : QuorumTracker) (a : Nat) : QuorumTracker :=
  if a ∈ t.acks then t else ⟨a :: t.acks⟩

/-- Number of distinct acceptors acknowledged so far. -/
def QuorumTracker.count (t : QuorumTracker) : Nat := t.acks.length

/-- The tracker signals a majority once the count meets the threshold. -/
def QuorumTracker.reached (t : QuorumTracker) (N : Nat) : Prop :=
  quorumThreshold N ≤ t.count

/-- A set of acceptor identities forms a quorum when it has at least the
majority threshold of members; this gates both protocol phases in the step
relation below. -/
def isQuorum (N : Nat) (Q : Finset (Fin N)) : Prop :=
  quorumThreshold N ≤ Q.card

instance (N : Nat) (Q : Finset (Fin N)) : Decidable (isQuorum N Q) := by
  unfold isQuorum; exact inferInstance

/-- Any two quorums of the same acceptor set intersect. -/
theorem quorum_inter {N : Nat} {Q1 Q2 : Finset (Fin N)}
    (h1 : isQuorum N Q1) (h2 : isQuorum N Q2) : ∃ a, a ∈ Q1 ∧ a ∈ Q2 := by
  unfold isQuorum quorumThreshold at h1 h2
  have hu : (Q1 ∪ Q2).card ≤ N := by
    calc (Q1 ∪ Q2).card ≤ (Finset.univ : Finset (Fin N)).card := Finset.card_le_univ _
    _ = N := by simp
  have hsum : (Q1 ∪ Q2).card + (Q1 ∩ Q2).card = Q1.card + Q2.card :=
    Finset.card_union_add_card_inter Q1 Q2
  have hpos : 0 < (Q1 ∩ Q2).card := by omega
  obtain ⟨a, ha⟩ := Finset.card_pos.mp hpos
  exact ⟨a, Finset.mem_inter.mp ha⟩

/-- Modelled from the spec: the ProposalNumbering component, a per-proposer
counter paired with the proposer's identity (spec.md §2, §3). -/
structure ProposalNumbering where
  counter : Nat
  proposer_id : Nat
deriving DecidableEq, Repr

/-- Draw the next proposal number and advance the counter. -/
def ProposalNumbering.next (g : ProposalNumbering) : Ballot × ProposalNumbering :=
  ((g.counter, g.proposer_id), { g with counter := g.counter + 1 })

/-- The generator state after `k` draws. -/
def ProposalNumbering.afterDraws (g : ProposalNumbering) : Nat → ProposalNumbering
  | 0 => g
  | k + 1 => ((g.afterDraws k).next).2

/-- The `k`-th proposal number issued by a generator (zero-based). -/
def ProposalNumbering.issued (g : ProposalNumbering) (k : Nat) : Ballot :=
  ((g.afterDraws k).next).1

theorem afterDraws_counter (g : ProposalNumbering) (k : Nat) :
    (g.afterDraws k).counter = g.counter + k := by
  induction k with
  | zero => rfl
  | succ k ih =>
    simp only [ProposalNumbering.afterDraws, ProposalNumbering.next, ih]
    omega

theorem afterDraws_pid (g : ProposalNumbering) (k : Nat) :
    (g.afterDraws k).proposer_id = g.proposer_id := by
  induction k with
  | zero => rfl
  | succ k ih => simp [ProposalNumbering.afterDraws, ProposalNumbering.next, ih]

theorem issued_eq (g : ProposalNumbering) (k : Nat) :
    g.issued k = (g.counter + k, g.proposer_id) := by
  simp [ProposalNumbering.issued, ProposalNumbering.next, afterDraws_counter, afterDraws_pid]

/-- Modelled from the spec: the payload an acceptor attaches to a
PrepareAck, pairing `accepted_number` with `accepted_value`; both are set
together by `onAccept`, so the pairing is total or absent. -/
def payloadOf (an : Option Ballot) (av : Option Value) : Option (Ballot × Value) :=
  match an, av with
  | some b, some v => some (b, v)
  | _, _ => none

/-- Modelled from the spec: the highest `(accepted_number, accepted_value)`
pair among a round's promises (spec.md §3, `working_value`). -/
def pickHighest : List (Option (Ballot × Value)) → Option (Ballot × Value)
  | [] => none
  | none :: ps => pickHighest ps
  | some bv :: ps =>
    match pickHighest ps with
    | none => some bv
    | some bv' => if ballotLt bv.1 bv'.1 then some bv' else some bv

theorem pickHighest_cons_none (ps : List (Option (Ballot × Value))) :
    pickHighest (none :: ps) = pickHighest ps := rfl

theorem pickHighest_cons_some (bv : Ballot × Value) (ps : List (Option (Ballot × Value))) :
    pickHighest (some bv :: ps) =
      match pickHighest ps with
      | none => some bv
      | some bv' => if ballotLt bv.1 bv'.1 then some bv' else some bv := rfl

/-- Modelled from the spec: the value a proposer sends in its Accept
message: its own `initial_value` when no promise carries an accepted value,
otherwise the value attached to the highest `accepted_number` (spec.md §3). -/
def workingValue (initial : Value) (payloads : List (Option (Ballot × Value))) : Value :=
  match pickHighest payloads with
  | none => initial
  | some bv => bv.2

theorem pickHighest_mem {ps : List (Option (Ballot × Value))} {bv : Ballot × Value}
    (h : pickHighest ps = some bv) : some bv ∈ ps := by
  induction ps with
  | nil => exact absurd h (by simp [pickHighest])
  | cons p ps ih =>
    cases p with
    | none =>
      rw [pickHighest_cons_none] at h
      exact List.mem_cons_of_mem _ (ih h)
    | some bv0 =>
      rw [pickHighest_cons_some] at h
      cases hr : pickHighest ps with
      | none =>
        rw [hr] at h
        simp only [Option.some_inj] at h
        exact h ▸ List.mem_cons_self _ _
      | some bv1 =>
        rw [hr] at h
        simp only at h
        by_cases hc : ballotLt bv0.1 bv1.1
        · rw [if_pos hc, Option.some_inj] at h
          exact List.mem_cons_of_mem _ (ih (h ▸ hr))
        · rw [if_neg hc, Option.some_inj] at h
          exact h ▸ List.mem_cons_self _ _

theorem pickHighest_none {ps : List (Option (Ballot × Value))}
    (h : pickHighest ps = none) : ∀ p ∈ ps, p = none := by
  induction ps with
  | nil => simp
  | cons p ps ih =>
    intro q hq
    cases p with
    | none =>
      rw [pickHighest_cons_none] at h
      rcases List.mem_cons.mp hq with rfl | hq'
      · rfl
      · exact ih h q hq'
    | some bv0 =>
      rw [pickHighest_cons_some] at h
      cases hr : pickHighest ps with
      | none => rw [hr] at h; exact absurd h (by simp)
      | some bv1 =>
        rw [hr] at h
        simp only at h
        by_cases hc : ballotLt bv0.1 bv1.1
        · rw [if_pos hc] at h; exact absurd h (by simp)
        · rw [if_neg hc] at h; exact absurd h (by simp)

theorem pickHighest_max {ps : List (Option (Ballot × Value))} {bv : Ballot × Value}
    (h : pickHighest ps = some bv) :
    ∀ b' v', some (b', v') ∈ ps → ballotLe b' bv.1 := by
  induction ps generalizing bv with
  | nil => simp
  | cons p ps ih =>
    intro b' v' hmem
    rcases List.mem_cons.mp hmem with heq | hmem'
    · -- the head is exactly the entry (b', v')
      subst heq
      rw [pickHighest_cons_some] at h
      cases hr : pickHighest ps with
      | none =>
        rw [hr, Option.some_inj] at h
        exact h ▸ ballotLe_refl _
      | some bv1 =>
        rw [hr] at h
        simp only at h
        by_cases hc : ballotLt (b', v').1 bv1.1
        · rw [if_pos hc, Option.some_inj] at h
          exact h ▸ Or.inl hc
        · rw [if_neg hc, Option.some_inj] at h
          exact h ▸ ballotLe_refl _
    · -- the entry lies in the tail
      cases p with
      | none =>
        rw [pickHighest_cons_none] at h
        exact ih h b' v' hmem'
      | some bv0 =>
        rw [pickHighest_cons_some] at h
        cases hr : pickHighest ps with
        | none =>
          have := pickHighest_none hr _ hmem'
          exact absurd this (by simp)
        | some bv1 =>
          rw [hr] at h
          simp only at h
          have hle : ballotLe b' bv1.1 := ih hr b' v' hmem'
          by_cases hc : ballotLt bv0.1 bv1.1
          · rw [if_pos hc, Option.some_inj] at h
            exact h ▸ hle
          · rw [if_neg hc, Option.some_inj] at h
            have h1 : ballotLe bv1.1 bv0.1 := by
              rcases ballotLe_total bv1.1 bv0.1 with h1 | h1
              · exact h1
              · rcases h1 with h1 | h1
                · exact absurd h1 hc
                · exact Or.inr h1.symm
            exact ballotLe_trans hle (h ▸ h1)

theorem pickHighest_isSome {ps : List (Option (Ballot × Value))}
    {bv : Ballot × Value} (h : some bv ∈ ps) : ∃ bv', pickHighest ps = some bv' := by
  cases hr : pickHighest ps with
  | some bv' => exact ⟨bv', rfl⟩
  | none => exact absurd (pickHighest_none hr _ h) (by simp)

theorem promOk_le {p : Option Ballot} {n : Ballot} (h : promOk p n) : promLe p (some n) := by
  cases p with
  | none => trivial
  | some b => exact Or.inl h

theorem accOk_le {p : Option Ballot} {n : Ballot} (h : accOk p n) : promLe p (some n) := by
  cases p with
  | none => trivial
  | some b => exact h

theorem promLe_some_some {a b : Ballot} : promLe (some a) (some b) ↔ ballotLe a b := Iff.rfl

theorem promLe_some_none {a : Ballot} : ¬ promLe (some a) none := fun h => h

/-- Modelled from the spec: the global protocol state of one consensus run
over `N` acceptors. Messages live in grow-only pools, so any message can be
delivered at any time, any number of times, or never: this captures
reordering, duplication and drops (spec.md §8 Safety). `oneA` is the pool of
Prepare messages, `oneB` of PrepareAcks (acceptor, ballot, accepted payload
at promise time), `twoA` of Accept messages, `twoB` of AcceptAcks, and
`chosen` the Chosen notifications emitted anywhere in the system. -/
structure GState (N : Nat) where
  accs : Fin N → AcceptorRecord
  oneA : List Ballot
  oneB : List (Fin N × Ballot × Option (Ballot × Value))
  twoA : List (Ballot × Value)
  twoB : List (Fin N × Ballot)
  chosen : List (Ballot × Value)

/-- The initial global state: fresh acceptor records, no messages sent. -/
def initState (N : Nat) : GState N :=
  { accs := fun _ => AcceptorRecord.init, oneA := [], oneB := [], twoA := [],
    twoB := [], chosen := [] }

/-- Effect of delivering Prepare(b) to acceptor `a`: run `onPrepare` and,
when it acks, publish the PrepareAck with the acceptor's accepted payload. -/
def prepStep {N : Nat} (a : Fin N) (b : Ballot) (s : GState N) : GState N :=
  let res := onPrepare b (s.accs a)
  { s with
    accs := Function.update s.accs a res.1,
    oneB := match res.2 with
      | PrepareReply.ack n an av => (a, n, payloadOf an av) :: s.oneB
      | PrepareReply.silence => s.oneB }

/-- Effect of delivering Accept(b, v) to acceptor `a`: run `onAccept` and,
when it acks, publish the AcceptAck. -/
def accStep {N : Nat} (a : Fin N) (b : Ballot) (v : Value) (s : GState N) : GState N :=
  let res := onAccept b v (s.accs a)
  { s with
    accs := Function.update s.accs a res.1,
    twoB := match res.2 with
      | AcceptReply.ack n => (a, n) :: s.twoB
      | AcceptReply.silence => s.twoB }

/-- The accepted payloads carried by the PrepareAcks for ballot `b` coming
from members of `Q`. -/
def promisesFor {N : Nat} (s : GState N) (Q : Finset (Fin N)) (b : Ballot) :
    List (Option (Ballot × Value)) :=
  (s.oneB.filter (fun e => decide (e.1 ∈ Q) && decide (e.2.1 = b))).map (fun e => e.2.2)

/-- Modelled from the spec: the conditions under which a proposer moves from
Preparing to Accepting and broadcasts Accept(b, v) (spec.md §4.2): a quorum
`Q` of promises for `b`, the value computed by the adoption rule from those
promises for some choice of the proposer's own initial value, and no Accept
for ballot `b` sent before (rounds never reuse a ballot: numbering is
per-proposer unique and strictly increasing, and the Preparing → Accepting
transition fires once per round). -/
def sendAcceptPre {N : Nat} (s : GState N) (b : Ballot) (v : Value) (Q : Finset (Fin N)) :
    Prop :=
  isQuorum N Q ∧
  (∀ a ∈ Q, ∃ p, (a, b, p) ∈ s.oneB) ∧
  (∃ initial, v = workingValue initial (promisesFor s Q b)) ∧
  (∀ v', (b, v') ∉ s.twoA)

/-- Modelled from the spec: one atomic protocol event (spec.md §4, §5).
Handlers are serialized per acceptor; messages are delivered from the pools
in any order, with duplication and drops. -/
inductive Step (N : Nat) : GState N → GState N → Prop where
  | startRound (s : GState N) (b : Ballot) :
      Step N s { s with oneA := b :: s.oneA }
  | recvPrepare (s : GState N) (a : Fin N) (b : Ballot) (hb : b ∈ s.oneA) :
      Step N s (prepStep a b s)
  | sendAccept (s : GState N) (b : Ballot) (v : Value) (Q : Finset (Fin N))
      (h : sendAcceptPre s b v Q) :
      Step N s { s with twoA := (b, v) :: s.twoA }
  | recvAccept (s : GState N) (a : Fin N) (b : Ballot) (v : Value)
      (h2a : (b, v) ∈ s.twoA) :
      Step N s (accStep a b v s)
  | emitChosen (s : GState N) (b : Ballot) (v : Value) (Q : Finset (Fin N))
      (h2a : (b, v) ∈ s.twoA) (hq : isQuorum N Q)
      (hacks : ∀ a ∈ Q, (a, b) ∈ s.twoB) :
      Step N s { s with chosen := (b, v) :: s.chosen }

/-- States reachable from the initial state by protocol events. -/
def Reachable (N : Nat) (s : GState N) : Prop :=
  Relation.ReflTransGen (Step N) (initState N) s

theorem prepStep_pos {N : Nat} {a : Fin N} {b : Ballot} {s : GState N}
    (h : promOk ((s.accs a).promised_number) b) :
    prepStep a b s = { s with
      accs := Function.update s.accs a { s.accs a with promised_number := some b },
      oneB := (a, b, payloadOf (s.accs a).accepted_number (s.accs a).accepted_value)
        :: s.oneB } := by
  unfold prepStep
  rw [onPrepare_pos h]

theorem prepStep_neg {N : Nat} {a : Fin N} {b : Ballot} {s : GState N}
    (h : ¬ promOk ((s.accs a).promised_number) b) :
    prepStep a b s = s := by
  unfold prepStep
  rw [onPrepare_neg h]
  simp [Function.update_eq_self]

theorem accStep_pos {N : Nat} {a : Fin N} {b : Ballot} {v : Value} {s : GState N}
    (h : accOk ((s.accs a).promised_number) b) :
    accStep a b v s = { s with
      accs := Function.update s.accs a ⟨some b, some b, some v⟩,
      twoB := (a, b) :: s.twoB } := by
  unfold accStep
  rw [onAccept_pos h]

theorem accStep_neg {N : Nat} {a : Fin N} {b : Ballot} {v : Value} {s : GState N}
    (h : ¬ accOk ((s.accs a).promised_number) b) :
    accStep a b v s = s := by
  unfold accStep
  rw [onAccept_neg h]
  simp [Function.update_eq_self]

/-- The inductive invariant of the protocol, the conjunction of the
per-message and per-acceptor properties that make the safety argument go
through: at most one value per ballot in the Accept pool, every AcceptAck
backed by an Accept, promises bounded by the acceptor's promised number,
coherence of the accepted fields, votes bounded by the accepted number, and
every Accept justified by a quorum of promises through the adoption rule. -/
structure PaxosInv (N : Nat) (s : GState N) : Prop where
  twoA_fun : ∀ b v v', (b, v) ∈ s.twoA → (b, v') ∈ s.twoA → v = v'
  twoB_twoA : ∀ a b, (a, b) ∈ s.twoB → ∃ v, (b, v) ∈ s.twoA
  oneB_promised : ∀ a b p, (a, b, p) ∈ s.oneB → promLe (some b) ((s.accs a).promised_number)
  acc_coherent : ∀ a, ((s.accs a).accepted_number = none ↔ (s.accs a).accepted_value = none)
  accepted_le_promised : ∀ a ab, (s.accs a).accepted_number = some ab →
      promLe (some ab) ((s.accs a).promised_number)
  twoB_accepted : ∀ a b, (a, b) ∈ s.twoB →
      ∃ ab, (s.accs a).accepted_number = some ab ∧ ballotLe b ab
  accepted_ok : ∀ a ab, (s.accs a).accepted_number = some ab →
      ∃ av, (s.accs a).accepted_value = some av ∧ (ab, av) ∈ s.twoA ∧ (a, ab) ∈ s.twoB
  oneB_none : ∀ a b, (a, b, none) ∈ s.oneB → ∀ b', (a, b') ∈ s.twoB → ¬ ballotLt b' b
  oneB_some : ∀ a b pb pv, (a, b, some (pb, pv)) ∈ s.oneB →
      ballotLt pb b ∧ (pb, pv) ∈ s.twoA ∧ (a, pb) ∈ s.twoB ∧
      (∀ b', (a, b') ∈ s.twoB → ballotLt b' b → ballotLe b' pb)
  twoA_safe : ∀ b v, (b, v) ∈ s.twoA → ∃ Q, isQuorum N Q ∧
      (∀ a ∈ Q, ∃ p, (a, b, p) ∈ s.oneB) ∧
      ((∀ a ∈ Q, ∀ p, (a, b, p) ∈ s.oneB → p = none) ∨
       (∃ mb, (∃ a ∈ Q, (a, b, some (mb, v)) ∈ s.oneB) ∧
         (∀ a ∈ Q, ∀ pb pv, (a, b, some (pb, pv)) ∈ s.oneB → ballotLe pb mb)))
  chosen_ok : ∀ b v, (b, v) ∈ s.chosen → (b, v) ∈ s.twoA ∧
      ∃ Q, isQuorum N Q ∧ ∀ a ∈ Q, (a, b) ∈ s.twoB

theorem inv_init (N : Nat) : PaxosInv N (initState N) := by
  refine ⟨?_, ?_, ?_, ?_, ?_, ?_, ?_, ?_, ?_, ?_, ?_⟩ <;>
    simp [initState, AcceptorRecord.init]

theorem payloadOf_none {an : Option Ballot} {av : Option Value}
    (h : payloadOf an av = none) : an = none ∨ av = none := by
  cases an <;> cases av <;> simp_all [payloadOf]

theorem payloadOf_some {an : Option Ballot} {av : Option Value} {pb : Ballot} {pv : Value}
    (h : payloadOf an av = some (pb, pv)) : an = some pb ∧ av = some pv := by
  cases an <;> cases av <;> simp_all [payloadOf]

theorem mem_promisesFor {N : Nat} {s : GState N} {Q : Finset (Fin N)} {a : Fin N}
    {b : Ballot} {p : Option (Ballot × Value)}
    (hmem : (a, b, p) ∈ s.oneB) (ha : a ∈ Q) : p ∈ promisesFor s Q b := by
  unfold promisesFor
  refine List.mem_map.mpr ⟨(a, b, p), ?_, rfl⟩
  exact List.mem_filter.mpr ⟨hmem, by simp [ha]⟩

theorem promisesFor_mem {N : Nat} {s : GState N} {Q : Finset (Fin N)} {b : Ballot}
    {p : Option (Ballot × Value)} (h : p ∈ promisesFor s Q b) :
    ∃ a, a ∈ Q ∧ (a, b, p) ∈ s.oneB := by
  unfold promisesFor at h
  obtain ⟨e, he, hp⟩ := List.mem_map.mp h
  obtain ⟨hmem, hcond⟩ := List.mem_filter.mp he
  simp only [Bool.and_eq_true, decide_eq_true_eq] at hcond
  obtain ⟨haQ, hb⟩ := hcond
  obtain ⟨a0, b0, p0⟩ := e
  simp only at haQ hb hp
  subst hb; subst hp
  exact ⟨a0, haQ, hmem⟩

theorem inv_startRound {N : Nat} {s : GState N} (hI : PaxosInv N s) (b : Ballot) :
    PaxosInv N { s with oneA := b :: s.oneA } :=
  ⟨hI.twoA_fun, hI.twoB_twoA, hI.oneB_promised, hI.acc_coherent,
   hI.accepted_le_promised, hI.twoB_accepted, hI.accepted_ok, hI.oneB_none,
   hI.oneB_some, hI.twoA_safe, hI.chosen_ok⟩

theorem inv_emitChosen {N : Nat} {s : GState N} {b : Ballot} {v : Value}
    {Q : Finset (Fin N)} (hI : PaxosInv N s) (h2a : (b, v) ∈ s.twoA)
    (hq : isQuorum N Q) (hacks : ∀ a ∈ Q, (a, b) ∈ s.twoB) :
    PaxosInv N { s with chosen := (b, v) :: s.chosen } := by
  refine ⟨hI.twoA_fun, hI.twoB_twoA, hI.oneB_promised, hI.acc_coherent,
    hI.accepted_le_promised, hI.twoB_accepted, hI.accepted_ok, hI.oneB_none,
    hI.oneB_some, hI.twoA_safe, ?_⟩
  intro b0 v0 hm
  rcases List.mem_cons.mp hm with heq | hold
  · obtain ⟨rfl, rfl⟩ := Prod.mk.injEq .. ▸ heq
    exact ⟨h2a, Q, hq, hacks⟩
  · exact hI.chosen_ok _ _ hold

theorem inv_sendAccept {N : Nat} {s : GState N} {b : Ballot} {v : Value}
    {Q : Finset (Fin N)} (hI : PaxosInv N s) (h : sendAcceptPre s b v Q) :
    PaxosInv N { s with twoA := (b, v) :: s.twoA } := by
  obtain ⟨hq, hcover, ⟨init0, hv⟩, hfresh⟩ := h
  refine ⟨?_, ?_, hI.oneB_promised, hI.acc_coherent, hI.accepted_le_promised,
    hI.twoB_accepted, ?_, hI.oneB_none, ?_, ?_, ?_⟩
  · -- twoA_fun
    intro b0 v0 v1 h0 h1
    rcases List.mem_cons.mp h0 with he0 | ho0 <;>
      rcases List.mem_cons.mp h1 with he1 | ho1
    · obtain ⟨rfl, rfl⟩ := Prod.mk.injEq .. ▸ he0
      obtain ⟨-, rfl⟩ := Prod.mk.injEq .. ▸ he1
      rfl
    · obtain ⟨rfl, rfl⟩ := Prod.mk.injEq .. ▸ he0
      exact absurd ho1 (hfresh v1)
    · obtain ⟨rfl, rfl⟩ := Prod.mk.injEq .. ▸ he1
      exact absurd ho0 (hfresh v0)
    · exact hI.twoA_fun _ _ _ ho0 ho1
  · -- twoB_twoA
    intro a0 b0 hm
    obtain ⟨v0, hv0⟩ := hI.twoB_twoA a0 b0 hm
    exact ⟨v0, List.mem_cons_of_mem _ hv0⟩
  · -- accepted_ok
    intro a0 ab hab
    obtain ⟨av, h1, h2, h3⟩ := hI.accepted_ok a0 ab hab
    exact ⟨av, h1, List.mem_cons_of_mem _ h2, h3⟩
  · -- oneB_some
    intro a0 b0 pb pv hm
    obtain ⟨h1, h2, h3, h4⟩ := hI.oneB_some a0 b0 pb pv hm
    exact ⟨h1, List.mem_cons_of_mem _ h2, h3, h4⟩
  · -- twoA_safe
    intro b0 v0 hm
    rcases List.mem_cons.mp hm with heq | hold
    · obtain ⟨rfl, rfl⟩ := Prod.mk.injEq .. ▸ heq
      refine ⟨Q, hq, hcover, ?_⟩
      cases hr : pickHighest (promisesFor s Q b0) with
      | none =>
        left
        intro a ha p hp
        exact pickHighest_none hr _ (mem_promisesFor hp ha)
      | some mbv =>
        right
        obtain ⟨mb, mv⟩ := mbv
        have hveq : v0 = mv := by
          rw [hv, workingValue, hr]
        obtain ⟨aw, haw, hwmem⟩ := promisesFor_mem (pickHighest_mem hr)
        refine ⟨mb, ⟨aw, haw, hveq ▸ hwmem⟩, ?_⟩
        intro a ha pb pv hp
        exact pickHighest_max hr pb pv (mem_promisesFor hp ha)
    · obtain ⟨Q0, hq0, hcov0, hdisj⟩ := hI.twoA_safe _ _ hold
      exact ⟨Q0, hq0, hcov0, hdisj⟩
  · -- chosen_ok
    intro b0 v0 hm
    obtain ⟨h1, Q0, hq0, hv0⟩ := hI.chosen_ok _ _ hm
    exact ⟨List.mem_cons_of_mem _ h1, Q0, hq0, hv0⟩

theorem inv_recvAccept {N : Nat} {s : GState N} {a : Fin N} {b : Ballot} {v : Value}
    (hI : PaxosInv N s) (h2a : (b, v) ∈ s.twoA) : PaxosInv N (accStep a b v s) := by
  by_cases hOk : accOk ((s.accs a).promised_number) b
  case neg => rw [accStep_neg hOk]; exact hI
  rw [accStep_pos hOk]
  have hpromle : promLe ((s.accs a).promised_number) (some b) := accOk_le hOk
  refine ⟨hI.twoA_fun, ?_, ?_, ?_, ?_, ?_, ?_, ?_, ?_, hI.twoA_safe, ?_⟩
  · -- twoB_twoA
    intro a0 b0 hm
    rcases List.mem_cons.mp hm with heq | hold
    · obtain ⟨rfl, rfl⟩ := Prod.mk.injEq .. ▸ heq
      exact ⟨v, h2a⟩
    · exact hI.twoB_twoA _ _ hold
  · -- oneB_promised
    intro a0 b0 p0 hm
    by_cases ha0 : a0 = a
    · subst ha0
      simp only [Function.update_same]
      exact promLe_trans (hI.oneB_promised _ _ _ hm) hpromle
    · simp only [Function.update_noteq ha0]
      exact hI.oneB_promised _ _ _ hm
  · -- acc_coherent
    intro a0
    by_cases ha0 : a0 = a
    · subst ha0; simp [Function.update_same]
    · simp only [Function.update_noteq ha0]; exact hI.acc_coherent a0
  · -- accepted_le_promised
    intro a0 ab hab
    by_cases ha0 : a0 = a
    · subst ha0
      simp only [Function.update_same] at hab ⊢
      cases hab
      exact ballotLe_refl _
    · simp only [Function.update_noteq ha0] at hab ⊢
      exact hI.accepted_le_promised _ _ hab
  · -- twoB_accepted
    intro a0 b0 hm
    rcases List.mem_cons.mp hm with heq | hold
    · obtain ⟨rfl, rfl⟩ := Prod.mk.injEq .. ▸ heq
      simp only [Function.update_same]
      exact ⟨b0, rfl, ballotLe_refl b0⟩
    · by_cases ha0 : a0 = a
      · subst ha0
        simp only [Function.update_same]
        obtain ⟨ab0, hab0, hle0⟩ := hI.twoB_accepted _ _ hold
        refine ⟨b, rfl, ?_⟩
        have h1 : promLe (some ab0) ((s.accs a0).promised_number) :=
          hI.accepted_le_promised _ _ hab0
        cases hq : (s.accs a0).promised_number with
        | none => rw [hq] at h1; exact absurd h1 promLe_some_none
        | some q =>
          rw [hq] at h1 hpromle
          exact ballotLe_trans hle0 (ballotLe_trans h1 hpromle)
      · simp only [Function.update_noteq ha0]
        exact hI.twoB_accepted _ _ hold
  · -- accepted_ok
    intro a0 ab hab
    by_cases ha0 : a0 = a
    · subst ha0
      simp only [Function.update_same] at hab ⊢
      cases hab
      exact ⟨v, rfl, h2a, List.mem_cons_self _ _⟩
    · simp only [Function.update_noteq ha0] at hab ⊢
      obtain ⟨av, h1, h2, h3⟩ := hI.accepted_ok _ _ hab
      exact ⟨av, h1, h2, List.mem_cons_of_mem _ h3⟩
  · -- oneB_none
    intro a0 b0 hm b' hv'
    rcases List.mem_cons.mp hv' with heq | hold
    · obtain ⟨rfl, rfl⟩ := Prod.mk.injEq .. ▸ heq
      have h1 : promLe (some b0) ((s.accs a0).promised_number) :=
        hI.oneB_promised _ _ _ hm
      cases hq : (s.accs a0).promised_number with
      | none => rw [hq] at h1; exact absurd h1 promLe_some_none
      | some q =>
        rw [hq] at h1 hpromle
        intro hcon
        exact ballotLt_not_le hcon (ballotLe_trans h1 hpromle)
    · exact hI.oneB_none _ _ hm _ hold
  · -- oneB_some
    intro a0 b0 pb pv hm
    obtain ⟨h1, h2, h3, h4⟩ := hI.oneB_some _ _ _ _ hm
    refine ⟨h1, h2, List.mem_cons_of_mem _ h3, ?_⟩
    intro b' hv' hlt
    rcases List.mem_cons.mp hv' with heq | hold
    · obtain ⟨rfl, rfl⟩ := Prod.mk.injEq .. ▸ heq
      have hb0 : promLe (some b0) ((s.accs a0).promised_number) :=
        hI.oneB_promised _ _ _ hm
      cases hq : (s.accs a0).promised_number with
      | none => rw [hq] at hb0; exact absurd hb0 promLe_some_none
      | some q =>
        rw [hq] at hb0 hpromle
        exact absurd (ballotLe_trans hb0 hpromle) (ballotLt_not_le hlt)
    · exact h4 _ hold hlt
  · -- chosen_ok
    intro b0 v0 hm
    obtain ⟨h1, Q0, hq0, hv0⟩ := hI.chosen_ok _ _ hm
    exact ⟨h1, Q0, hq0, fun a0 ha0 => List.mem_cons_of_mem _ (hv0 a0 ha0)⟩

theorem inv_recvPrepare {N : Nat} {s : GState N} {a : Fin N} {b : Ballot}
    (hI : PaxosInv N s) : PaxosInv N (prepStep a b s) := by
  by_cases hOk : promOk ((s.accs a).promised_number) b
  case neg => rw [prepStep_neg hOk]; exact hI
  rw [prepStep_pos hOk]
  have hpromle : promLe ((s.accs a).promised_number) (some b) := promOk_le hOk
  have hnodup : ∀ p0, (a, b, p0) ∈ s.oneB → False := by
    intro p0 hp0
    have h1 := hI.oneB_promised _ _ _ hp0
    cases hq : (s.accs a).promised_number with
    | none => rw [hq] at h1; exact absurd h1 promLe_some_none
    | some q =>
      rw [hq] at h1
      have hOk' := hOk
      rw [hq] at hOk'
      exact absurd h1 (ballotLt_not_le hOk')
  refine ⟨hI.twoA_fun, hI.twoB_twoA, ?_, ?_, ?_, ?_, ?_, ?_, ?_, ?_, hI.chosen_ok⟩
  · -- oneB_promised
    intro a0 b0 p0 hm
    rcases List.mem_cons.mp hm with heq | hold
    · simp only [Prod.mk.injEq] at heq
      obtain ⟨rfl, rfl, rfl⟩ := heq
      simp only [Function.update_same]
      exact ballotLe_refl _
    · by_cases ha0 : a0 = a
      · subst ha0
        simp only [Function.update_same]
        exact promLe_trans (hI.oneB_promised _ _ _ hold) hpromle
      · simp only [Function.update_noteq ha0]
        exact hI.oneB_promised _ _ _ hold
  · -- acc_coherent
    intro a0
    by_cases ha0 : a0 = a
    · subst ha0
      simp only [Function.update_same]
      exact hI.acc_coherent a0
    · simp only [Function.update_noteq ha0]
      exact hI.acc_coherent a0
  · -- accepted_le_promised
    intro a0 ab hab
    by_cases ha0 : a0 = a
    · subst ha0
      simp only [Function.update_same] at hab ⊢
      exact promLe_trans (hI.accepted_le_promised _ _ hab) hpromle
    · simp only [Function.update_noteq ha0] at hab ⊢
      exact hI.accepted_le_promised _ _ hab
  · -- twoB_accepted
    intro a0 b0 hm
    obtain ⟨ab, hab, hle⟩ := hI.twoB_accepted _ _ hm
    by_cases ha0 : a0 = a
    · subst ha0
      simp only [Function.update_same]
      exact ⟨ab, hab, hle⟩
    · simp only [Function.update_noteq ha0]
      exact ⟨ab, hab, hle⟩
  · -- accepted_ok
    intro a0 ab hab
    by_cases ha0 : a0 = a
    · subst ha0
      simp only [Function.update_same] at hab ⊢
      exact hI.accepted_ok _ _ hab
    · simp only [Function.update_noteq ha0] at hab ⊢
      exact hI.accepted_ok _ _ hab
  · -- oneB_none
    intro a0 b0 hm b' hv'
    rcases List.mem_cons.mp hm with heq | hold
    · simp only [Prod.mk.injEq] at heq
      obtain ⟨rfl, rfl, hpay⟩ := heq
      rcases payloadOf_none hpay.symm with han | hav
      · obtain ⟨ab, hab, -⟩ := hI.twoB_accepted _ _ hv'
        rw [han] at hab
        exact absurd hab (by simp)
      · have han := (hI.acc_coherent a0).mpr hav
        obtain ⟨ab, hab, -⟩ := hI.twoB_accepted _ _ hv'
        rw [han] at hab
        exact absurd hab (by simp)
    · exact hI.oneB_none _ _ hold _ hv'
  · -- oneB_some
    intro a0 b0 pb pv hm
    rcases List.mem_cons.mp hm with heq | hold
    · simp only [Prod.mk.injEq] at heq
      obtain ⟨rfl, rfl, hpay⟩ := heq
      obtain ⟨han, hav⟩ := payloadOf_some hpay.symm
      obtain ⟨av, hav', h2a, hvote⟩ := hI.accepted_ok _ _ han
      rw [hav] at hav'
      injection hav' with hpveq
      subst hpveq
      refine ⟨?_, h2a, hvote, ?_⟩
      · have h1 := hI.accepted_le_promised _ _ han
        cases hq : (s.accs a0).promised_number with
        | none => rw [hq] at h1; exact absurd h1 promLe_some_none
        | some q =>
          rw [hq] at h1
          have hOk' := hOk
          rw [hq] at hOk'
          exact ballotLt_of_le_of_lt h1 hOk'
      · intro b' hv' hlt
        obtain ⟨ab, hab, hle⟩ := hI.twoB_accepted _ _ hv'
        rw [han] at hab
        injection hab with hab'
        subst hab'
        exact hle
    · exact hI.oneB_some _ _ _ _ hold
  · -- twoA_safe
    intro b0 v0 hm
    obtain ⟨Q0, hq0, hcov0, hdisj⟩ := hI.twoA_safe _ _ hm
    have hnomatch : a ∈ Q0 → b = b0 → False := by
      intro haQ hbb
      subst hbb
      obtain ⟨p1, hp1⟩ := hcov0 a haQ
      exact hnodup p1 hp1
    refine ⟨Q0, hq0, ?_, ?_⟩
    · intro a0 ha0
      obtain ⟨p0, hp0⟩ := hcov0 a0 ha0
      exact ⟨p0, List.mem_cons_of_mem _ hp0⟩
    · rcases hdisj with hL | ⟨mb, ⟨aw, haw, hww⟩, hmax⟩
      · left
        intro a0 ha0 p0 hp0
        rcases List.mem_cons.mp hp0 with heq | hold2
        · simp only [Prod.mk.injEq] at heq
          obtain ⟨ha, hb, -⟩ := heq
          exact (hnomatch (ha ▸ ha0) hb.symm).elim
        · exact hL a0 ha0 p0 hold2
      · right
        refine ⟨mb, ⟨aw, haw, List.mem_cons_of_mem _ hww⟩, ?_⟩
        intro a0 ha0 pb pv hp0
        rcases List.mem_cons.mp hp0 with heq | hold2
        · simp only [Prod.mk.injEq] at heq
          obtain ⟨ha, hb, -⟩ := heq
          exact (hnomatch (ha ▸ ha0) hb.symm).elim
        · exact hmax a0 ha0 pb pv hold2

theorem step_inv {N : Nat} {s s' : GState N} (hstep : Step N s s') (hI : PaxosInv N s) :
    PaxosInv N s' := by
  cases hstep with
  | startRound b => exact inv_startRound hI b
  | recvPrepare a b hb => exact inv_recvPrepare hI
  | sendAccept b v Q h => exact inv_sendAccept hI h
  | recvAccept a b v h2a => exact inv_recvAccept hI h2a
  | emitChosen b v Q h2a hq hacks => exact inv_emitChosen hI h2a hq hacks

theorem reachable_inv {N : Nat} {s : GState N} (h : Reachable N s) : PaxosInv N s := by
  induction h with
  | refl => exact inv_init N
  | tail hsteps hstep ih => exact step_inv hstep ih

/-- A value is chosen at ballot `b` in state `s` when an Accept for `(b, v)`
was broadcast and a quorum of acceptors acknowledged it. -/
def chosenAt {N : Nat} (s : GState N) (b : Ballot) (v : Value) : Prop :=
  (b, v) ∈ s.twoA ∧ ∃ Q, isQuorum N Q ∧ ∀ a ∈ Q, (a, b) ∈ s.twoB

theorem chosen_safe {N : Nat} {s : GState N} (hI : PaxosInv N s) {b : Ballot} {v : Value}
    (hch : chosenAt s b v) :
    ∀ b2 v2, (b2, v2) ∈ s.twoA → ballotLe b b2 → v2 = v := by
  intro b2
  induction (ballotLt_wf.apply b2) with
  | intro x hacc ih =>
    intro v2 h2a hle
    rcases hle with hlt | heq
    · -- b strictly below x: use the quorum justification of the Accept at x
      obtain ⟨h2aCh, Qc, hqc, hvc⟩ := hch
      obtain ⟨Q2, hq2, hcov2, hdisj2⟩ := hI.twoA_safe x v2 h2a
      obtain ⟨a, haQc, haQ2⟩ := quorum_inter hqc hq2
      have hvote : (a, b) ∈ s.twoB := hvc a haQc
      obtain ⟨p, hp⟩ := hcov2 a haQ2
      cases p with
      | none => exact absurd hlt (hI.oneB_none _ _ hp b hvote)
      | some pbv =>
        obtain ⟨pb, pv⟩ := pbv
        obtain ⟨hpbx, hpb2a, hpbvote, hmaxa⟩ := hI.oneB_some _ _ _ _ hp
        have hble_pb : ballotLe b pb := hmaxa b hvote hlt
        rcases hdisj2 with hL | ⟨mb, ⟨aw, hawQ, hwmem⟩, hmax2⟩
        · exact absurd (hL a haQ2 _ hp) (by simp)
        · have hpb_le_mb : ballotLe pb mb := hmax2 a haQ2 pb pv hp
          have hb_le_mb : ballotLe b mb := ballotLe_trans hble_pb hpb_le_mb
          obtain ⟨hmbx, hmb2a, -, -⟩ := hI.oneB_some _ _ _ _ hwmem
          exact ih mb hmbx v2 hmb2a hb_le_mb
    · -- b = x: one value per ballot
      exact hI.twoA_fun x v2 v h2a (heq ▸ hch.1)

/-- C1. Agreement as a reachable-state invariant: for every execution of the
protocol — message deliveries reordered, duplicated or dropped at will — any
two Chosen notifications emitted anywhere in the system carry equal values. -/
theorem paxos_agreement {N : Nat} {s : GState N} (hr : Reachable N s)
    {b1 : Ballot} {v1 : Value} {b2 : Ballot} {v2 : Value}
    (h1 : (b1, v1) ∈ s.chosen) (h2 : (b2, v2) ∈ s.chosen) : v1 = v2 := by
  have hI := reachable_inv hr
  obtain ⟨h2a1, Q1, hq1, hv1⟩ := hI.chosen_ok _ _ h1
  obtain ⟨h2a2, Q2, hq2, hv2⟩ := hI.chosen_ok _ _ h2
  rcases ballotLe_total b1 b2 with hle | hle
  · exact (chosen_safe hI ⟨h2a1, Q1, hq1, hv1⟩ b2 v2 h2a2 hle).symm
  · exact chosen_safe hI ⟨h2a2, Q2, hq2, hv2⟩ b1 v1 h2a1 hle

/-- First demo ballot: proposer 1's round (counter 0). -/
def demoB1 : Ballot := (0, 1)

/-- Second demo ballot: proposer 2's round (counter 1). -/
def demoB2 : Ballot := (1, 2)

def demoS0 : GState 1 := initState 1

def demoS1 : GState 1 := { demoS0 with oneA := demoB1 :: demoS0.oneA }

def demoS2 : GState 1 := prepStep 0 demoB1 demoS1

def demoS3 : GState 1 := { demoS2 with twoA := (demoB1, 42) :: demoS2.twoA }

def demoS4 : GState 1 := accStep 0 demoB1 42 demoS3

def demoS5 : GState 1 := { demoS4 with chosen := (demoB1, 42) :: demoS4.chosen }

def demoS6 : GState 1 := { demoS5 with oneA := demoB2 :: demoS5.oneA }

def demoS7 : GState 1 := prepStep 0 demoB2 demoS6

def demoS8 : GState 1 := { demoS7 with twoA := (demoB2, 42) :: demoS7.twoA }

def demoS9 : GState 1 := accStep 0 demoB2 42 demoS8

def demoS10 : GState 1 := { demoS9 with chosen := (demoB2, 42) :: demoS9.chosen }

theorem demoPre1 : sendAcceptPre demoS2 demoB1 42 Finset.univ := by
  refine ⟨by decide, ?_, ⟨42, by decide⟩, ?_⟩
  · intro a _
    fin_cases a
    exact ⟨none, by decide⟩
  · intro v' h
    rw [show demoS2.twoA = [] from rfl] at h
    cases h

theorem demoAcks1 : ∀ a ∈ (Finset.univ : Finset (Fin 1)), (a, demoB1) ∈ demoS4.twoB := by
  intro a _
  fin_cases a
  decide

theorem demoPre2 : sendAcceptPre demoS7 demoB2 42 Finset.univ := by
  refine ⟨by decide, ?_, ⟨0, by decide⟩, ?_⟩
  · intro a _
    fin_cases a
    exact ⟨some (demoB1, 42), by decide⟩
  · intro v' h
    rw [show demoS7.twoA = [(demoB1, (42 : Value))] from rfl] at h
    rcases List.mem_cons.mp h with heq | h2
    · obtain ⟨h1, -⟩ := Prod.mk.injEq .. ▸ heq
      exact absurd h1 (by decide)
    · cases h2

theorem demoAcks2 : ∀ a ∈ (Finset.univ : Finset (Fin 1)), (a, demoB2) ∈ demoS9.twoB := by
  intro a _
  fin_cases a
  decide

theorem demoReach : Reachable 1 demoS10 := by
  have h0 : Reachable 1 demoS0 := Relation.ReflTransGen.refl
  have h1 : Reachable 1 demoS1 := h0.tail (Step.startRound demoS0 demoB1)
  have h2 : Reachable 1 demoS2 := h1.tail (Step.recvPrepare demoS1 0 demoB1 (by decide))
  have h3 : Reachable 1 demoS3 :=
    h2.tail (Step.sendAccept demoS2 demoB1 42 Finset.univ demoPre1)
  have h4 : Reachable 1 demoS4 := h3.tail (Step.recvAccept demoS3 0 demoB1 42 (by decide))
  have h5 : Reachable 1 demoS5 :=
    h4.tail (Step.emitChosen demoS4 demoB1 42 Finset.univ (by decide) (by decide) demoAcks1)
  have h6 : Reachable 1 demoS6 := h5.tail (Step.startRound demoS5 demoB2)
  have h7 : Reachable 1 demoS7 := h6.tail (Step.recvPrepare demoS6 0 demoB2 (by decide))
  have h8 : Reachable 1 demoS8 :=
    h7.tail (Step.sendAccept demoS7 demoB2 42 Finset.univ demoPre2)
  have h9 : Reachable 1 demoS9 := h8.tail (Step.recvAccept demoS8 0 demoB2 42 (by decide))
  exact h9.tail (Step.emitChosen demoS9 demoB2 42 Finset.univ (by decide) (by decide) demoAcks2)

theorem demoMem1 : (demoB1, (42 : Value)) ∈ demoS10.chosen := by decide

theorem demoMem2 : (demoB2, (42 : Value)) ∈ demoS10.chosen := by decide

/-- Witness for C1: a concrete two-round execution with one acceptor in
which both rounds reach Chosen; the two notifications both carry 42. -/
theorem paxos_agreement_witness : (42 : Value) = 42 :=
  paxos_agreement demoReach demoMem1 demoMem2

/-- C2. Adoption rule: when a proposer reaches the Accept phase for ballot
`b` with a quorum `Q` of promises and any of those promises carries a
non-empty accepted payload, the value `v` broadcast in the Accept message is
the value attached to the highest accepted number among the quorum's
promises, and the adoption result is independent of the proposer's own
initial value. -/
theorem adoption_rule {N : Nat} {s : GState N} {b : Ballot} {v : Value}
    {Q : Finset (Fin N)} (h : sendAcceptPre s b v Q)
    (hne : ∃ p ∈ promisesFor s Q b, p ≠ none) :
    ∃ mb, some (mb, v) ∈ promisesFor s Q b ∧
      (∀ pb pv, some (pb, pv) ∈ promisesFor s Q b → ballotLe pb mb) ∧
      (∀ initial, workingValue initial (promisesFor s Q b) = v) := by
  obtain ⟨-, -, ⟨init0, hv⟩, -⟩ := h
  obtain ⟨p, hp, hpne⟩ := hne
  obtain ⟨bv0, hbv0⟩ := Option.ne_none_iff_exists'.mp hpne
  obtain ⟨mbv, hr⟩ := pickHighest_isSome (hbv0 ▸ hp)
  obtain ⟨mb, mv⟩ := mbv
  have hveq : v = mv := by rw [hv, workingValue, hr]
  subst hveq
  refine ⟨mb, pickHighest_mem hr, ?_, ?_⟩
  · intro pb pv hmem
    exact pickHighest_max hr pb pv hmem
  · intro initial
    rw [workingValue, hr]

/-- Witness for C2 at the second demo round: the sole promise carries the
payload (demoB1, 42), so the broadcast value is forced to 42 whatever the
proposer's initial value was. -/
theorem adoption_rule_witness :
    ∃ mb, some (mb, (42 : Value)) ∈ promisesFor demoS7 Finset.univ demoB2 ∧
      (∀ pb pv, some (pb, pv) ∈ promisesFor demoS7 Finset.univ demoB2 → ballotLe pb mb) ∧
      (∀ initial, workingValue initial (promisesFor demoS7 Finset.univ demoB2) = 42) :=
  adoption_rule demoPre2 ⟨some (demoB1, 42), by decide, by decide⟩

/-- C3. For every acceptor record and incoming Accept(n, v): when
`n ≥ promised_number` the handler sets `promised_number = n`,
`accepted_number = n`, `accepted_value = v` and replies AcceptAck(n);
otherwise it ignores the message and the record is unchanged. -/
theorem onAccept_correct (r : AcceptorRecord) (n : Ballot) (v : Value) :
    (accOk r.promised_number n →
      onAccept n v r = (⟨some n, some n, some v⟩, AcceptReply.ack n)) ∧
    (¬ accOk r.promised_number n → onAccept n v r = (r, AcceptReply.silence)) :=
  ⟨fun h => onAccept_pos h, fun h => onAccept_neg h⟩

/-- Witness for C3: a fresh-enough Accept is applied in full; a stale one
leaves the record untouched. -/
theorem onAccept_correct_witness :
    onAccept (1, 1) 7 ⟨some (0, 0), none, none⟩ =
      (⟨some (1, 1), some (1, 1), some 7⟩, AcceptReply.ack (1, 1)) ∧
    onAccept (0, 0) 7 ⟨some (1, 1), some (1, 1), some 5⟩ =
      (⟨some (1, 1), some (1, 1), some 5⟩, AcceptReply.silence) :=
  ⟨(onAccept_correct ⟨some (0, 0), none, none⟩ (1, 1) 7).1 (by decide),
   (onAccept_correct ⟨some (1, 1), some (1, 1), some 5⟩ (0, 0) 7).2 (by decide)⟩

/-- C4. Proposal numbers: two proposers with distinct identities never issue
equal numbers, and within one proposer's lifetime each newly drawn number
strictly exceeds every number it previously issued. -/
theorem proposal_numbering_correct :
    (∀ g1 g2 : ProposalNumbering, g1.proposer_id ≠ g2.proposer_id →
      ∀ i j, g1.issued i ≠ g2.issued j) ∧
    (∀ (g : ProposalNumbering) (i j : Nat), i < j →
      ballotLt (g.issued i) (g.issued j)) := by
  constructor
  · intro g1 g2 hne i j heq
    rw [issued_eq, issued_eq] at heq
    exact hne (congrArg Prod.snd heq)
  · intro g i j hij
    rw [issued_eq, issued_eq]
    exact Or.inl (by omega)

/-- Witness for C4: proposers 1 and 2 issue different first numbers, and
proposer 1's second number exceeds its first. -/
theorem proposal_numbering_witness :
    ProposalNumbering.issued ⟨0, 1⟩ 0 ≠ ProposalNumbering.issued ⟨0, 2⟩ 0 ∧
    ballotLt (ProposalNumbering.issued ⟨0, 1⟩ 0) (ProposalNumbering.issued ⟨0, 1⟩ 1) :=
  ⟨proposal_numbering_correct.1 ⟨0, 1⟩ ⟨0, 2⟩ (by decide) 0 0,
   proposal_numbering_correct.2 ⟨0, 1⟩ 0 1 (by decide)⟩

theorem applyAOp_promised_mono (r : AcceptorRecord) (op : AOp) :
    promLe r.promised_number ((applyAOp r op).promised_number) := by
  cases op with
  | prepare n =>
    by_cases h : promOk r.promised_number n
    · show promLe _ (((onPrepare n r).1).promised_number)
      rw [onPrepare_pos h]
      exact promOk_le h
    · show promLe _ (((onPrepare n r).1).promised_number)
      rw [onPrepare_neg h]
      exact promLe_refl _
  | accept n v =>
    by_cases h : accOk r.promised_number n
    · show promLe _ (((onAccept n v r).1).promised_number)
      rw [onAccept_pos h]
      exact accOk_le h
    · show promLe _ (((onAccept n v r).1).promised_number)
      rw [onAccept_neg h]
      exact promLe_refl _

/-- C5. Promise monotonicity: `promised_number` is non-decreasing over any
sequence of applied Prepare/Accept operations, and a Prepare changes the
record only when its number strictly exceeds the current promise. -/
theorem promised_monotone :
    (∀ (r : AcceptorRecord) (ops : List AOp),
      promLe r.promised_number ((applyAOps r ops).promised_number)) ∧
    (∀ (r : AcceptorRecord) (n : Ballot), ¬ promOk r.promised_number n →
      applyAOp r (AOp.prepare n) = r) := by
  constructor
  · intro r ops
    induction ops generalizing r with
    | nil => exact promLe_refl _
    | cons op ops ih =>
      exact promLe_trans (applyAOp_promised_mono r op) (ih (applyAOp r op))
  · intro r n h
    show (onPrepare n r).1 = r
    rw [onPrepare_neg h]

/-- Witness for C5: a promise survives a later Prepare and Accept, and a
stale Prepare leaves the record unchanged. -/
theorem promised_monotone_witness :
    promLe (some (1, 1)) ((applyAOps ⟨some (1, 1), none, none⟩
      [AOp.prepare (2, 0), AOp.accept (3, 0) 9]).promised_number) ∧
    applyAOp ⟨some (1, 1), none, none⟩ (AOp.prepare (0, 0)) =
      ⟨some (1, 1), none, none⟩ :=
  ⟨promised_monotone.1 ⟨some (1, 1), none, none⟩ [AOp.prepare (2, 0), AOp.accept (3, 0) 9],
   promised_monotone.2 ⟨some (1, 1), none, none⟩ (0, 0) (by decide)⟩

/-- C6. Idempotence: delivering the same Prepare(n) or Accept(n, v) to an
acceptor twice produces the same AcceptorRecord as delivering it once. -/
theorem handlers_idempotent (r : AcceptorRecord) (op : AOp) :
    applyAOp (applyAOp r op) op = applyAOp r op := by
  cases op with
  | prepare n =>
    by_cases h : promOk r.promised_number n
    · have e1 : applyAOp r (AOp.prepare n) = { r with promised_number := some n } := by
        show (onPrepare n r).1 = _
        rw [onPrepare_pos h]
      rw [e1]
      show (onPrepare n { r with promised_number := some n }).1 = _
      have hneg : ¬ promOk ({ r with promised_number := some n } :
          AcceptorRecord).promised_number n := ballotLt_irrefl n
      rw [onPrepare_neg hneg]
    · have e1 : applyAOp r (AOp.prepare n) = r := by
        show (onPrepare n r).1 = _
        rw [onPrepare_neg h]
      rw [e1]
      exact e1
  | accept n v =>
    by_cases h : accOk r.promised_number n
    · have e1 : applyAOp r (AOp.accept n v) = ⟨some n, some n, some v⟩ := by
        show (onAccept n v r).1 = _
        rw [onAccept_pos h]
      rw [e1]
      show (onAccept n v ⟨some n, some n, some v⟩).1 = _
      have hpos : accOk ((⟨some n, some n, some v⟩ :
          AcceptorRecord).promised_number) n := ballotLe_refl n
      rw [onAccept_pos hpos]
    · have e1 : applyAOp r (AOp.accept n v) = r := by
        show (onAccept n v r).1 = _
        rw [onAccept_neg h]
      rw [e1]
      exact e1

theorem QuorumTracker.add_of_mem {t : QuorumTracker} {a : Nat} (h : a ∈ t.acks) :
    t.add a = t := by
  unfold QuorumTracker.add; rw [if_pos h]

theorem QuorumTracker.add_of_not_mem {t : QuorumTracker} {a : Nat} (h : ¬ a ∈ t.acks) :
    t.add a = ⟨a :: t.acks⟩ := by
  unfold QuorumTracker.add; rw [if_neg h]

/-- C7. The majority threshold gating both protocol phases is ⌊N/2⌋ + 1, and
the quorum tracker counts distinct acceptor identities, so duplicate
acknowledgements from the same acceptor never increase the count. -/
theorem quorum_counting :
    (∀ (N : Nat) (Q : Finset (Fin N)), isQuorum N Q ↔ N / 2 + 1 ≤ Q.card) ∧
    (∀ (t : QuorumTracker) (a : Nat), ((t.add a).add a).count = (t.add a).count) ∧
    (∀ (t : QuorumTracker) (a : Nat), a ∈ t.acks → (t.add a).count = t.count) := by
  refine ⟨fun N Q => Iff.rfl, ?_, ?_⟩
  · intro t a
    have hmem : a ∈ (t.add a).acks := by
      by_cases h : a ∈ t.acks
      · rw [QuorumTracker.add_of_mem h]; exact h
      · rw [QuorumTracker.add_of_not_mem h]; exact List.mem_cons_self _ _
    rw [QuorumTracker.add_of_mem hmem]
  · intro t a h
    rw [QuorumTracker.add_of_mem h]

/-- Witness for C7: three of four acceptors form a quorum, and re-adding an
already-counted acceptor leaves the count unchanged. -/
theorem quorum_counting_witness :
    isQuorum 4 ({0, 1, 2} : Finset (Fin 4)) ∧
    ((QuorumTracker.add ⟨[]⟩ 5).add 5).count = (QuorumTracker.add ⟨[]⟩ 5).count ∧
    (QuorumTracker.add ⟨[3]⟩ 3).count = (⟨[3]⟩ : QuorumTracker).count :=
  ⟨(quorum_counting.1 4 ({0, 1, 2} : Finset (Fin 4))).mpr (by decide),
   quorum_counting.2.1 ⟨[]⟩ 5,
   quorum_counting.2.2 ⟨[3]⟩ 3 (by decide)⟩

/-- A hostname as the C code handles it: a NUL-free character buffer
compared with strcmp (src/hw2/test1/peer.c). -/
abbrev HostName := List Char

/-- One line the heartbeat peer's main loop can print: the READY line, or
the diagnostic for an unrecognized datagram. -/
inductive OutLine where
  | ready
  | unknown (msg : List Char)
deriving DecidableEq, Repr

/-- Predicate picking out the READY line among printed lines. -/
def isReady : OutLine → Bool
  | OutLine.ready => true
  | OutLine.unknown _ => false

/-- The send phase of one main-loop iteration (peer.c steps 4–5 of the
loop): walk the peer list in order; an entry already online is skipped; the
entry equal to the peer's own hostname is marked online without any send;
every other offline entry is sent a ping. Returns the updated online array
and the list of ping destinations. -/
def sendPings : List HostName → List Bool → HostName → List Bool × List HostName
  | [], online, _ => (online, [])
  | _ :: _, [], _ => ([], [])
  | _ :: ps, true :: bs, me =>
    ((true : Bool) :: (sendPings ps bs me).1, (sendPings ps bs me).2)
  | p :: ps, false :: bs, me =>
    if p = me then ((true : Bool) :: (sendPings ps bs me).1, (sendPings ps bs me).2)
    else ((false : Bool) :: (sendPings ps bs me).1, p :: (sendPings ps bs me).2)

/-- The pong-processing loop (peer.c, "pong:" branch): mark every peer
whose name equals the sender's name as online; other entries keep their
flag. -/
def markPong : List HostName → List Bool → HostName → List Bool
  | [], online, _ => online
  | _ :: _, [], _ => []
  | p :: ps, b :: bs, their =>
    (if p = their then (if b then b else true) else b) :: markPong ps bs their

/-- The bytes "ping:" tested by strncmp(buffer, "ping:", 5). -/
def pingPrefix : List Char := ['p', 'i', 'n', 'g', ':']

/-- The bytes "pong:" tested by strncmp(buffer, "pong:", 5). -/
def pongPrefix : List Char := ['p', 'o', 'n', 'g', ':']

/-- Processing one received datagram (peer.c, message dispatch): a ping is
answered with a pong and changes no state; a pong marks its named sender
online; anything else prints the unknown-message diagnostic and changes no
state. -/
def handleMessage (peers : List HostName) (online : List Bool) (buf : List Char) :
    List Bool × List OutLine :=
  if pingPrefix.isPrefixOf buf then (online, [])
  else if pongPrefix.isPrefixOf buf then (markPong peers online (buf.drop 5), [])
  else (online, [OutLine.unknown buf])

/-- The loop-carried state of the heartbeat peer: the per-peer online flags
and the `all_online_printed` guard. -/
structure PeerState where
  online : List Bool
  printed : Bool
deriving DecidableEq, Repr

/-- One iteration of the heartbeat peer's main loop (peer.c): send pings
(which marks the self entry online), then either time out (`none` — the
code executes `continue` and never reaches the readiness check) or receive
one datagram, process it, and print READY exactly when every peer is online
and the guard flag is still unset. -/
def loopIter (peers : List HostName) (myName : HostName) (st : PeerState)
    (ev : Option (List Char)) : PeerState × List OutLine :=
  match ev with
  | none => ({ st with online := (sendPings peers st.online myName).1 }, [])
  | some buf =>
    let res := handleMessage peers (sendPings peers st.online myName).1 buf
    if res.1.all (fun x => x) && !st.printed then
      ({ online := res.1, printed := true }, res.2 ++ [OutLine.ready])
    else
      ({ online := res.1, printed := st.printed }, res.2)

/-- The heartbeat peer's main loop over a finite schedule of receive
events, accumulating the printed lines. -/
def runLoop (peers : List HostName) (myName : HostName) :
    PeerState → List (Option (List Char)) → PeerState × List OutLine
  | st, [] => (st, [])
  | st, ev :: evs =>
    ((runLoop peers myName (loopIter peers myName st ev).1 evs).1,
     (loopIter peers myName st ev).2 ++
       (runLoop peers myName (loopIter peers myName st ev).1 evs).2)

/-- The peer's state at program start: every peer offline (`calloc`) and the
READY guard unset (`all_online_printed = 0`). -/
def initPeerState (peers : List HostName) : PeerState :=
  { online := List.replicate peers.length false, printed := false }

theorem handleMessage_countP (peers : List HostName) (online : List Bool)
    (buf : List Char) : ((handleMessage peers online buf).2).countP isReady = 0 := by
  unfold handleMessage
  by_cases h1 : pingPrefix.isPrefixOf buf
  · rw [if_pos h1]; rfl
  · rw [if_neg h1]
    by_cases h2 : pongPrefix.isPrefixOf buf
    · rw [if_pos h2]; rfl
    · rw [if_neg h2]
      simp [List.countP_cons, isReady]


theorem loopIter_key (peers : List HostName) (myName : HostName) (st : PeerState)
    (ev : Option (List Char)) :
    ((loopIter peers myName st ev).2).countP isReady +
      (if (loopIter peers myName st ev).1.printed then 0 else 1) ≤
      (if st.printed then 0 else 1) := by
  cases ev with
  | none => simp [loopIter]
  | some buf =>
    simp only [loopIter]
    split
    case isTrue hc =>
      simp only [Bool.and_eq_true, Bool.not_eq_eq_eq_not, Bool.not_true] at hc
      rw [List.countP_append, handleMessage_countP, hc.2]
      simp [List.countP_cons, isReady]
    case isFalse hc =>
      rw [handleMessage_countP]
      simp

theorem runLoop_ready_bound (peers : List HostName) (myName : HostName)
    (st : PeerState) (evs : List (Option (List Char))) :
    ((runLoop peers myName st evs).2).countP isReady +
      (if (runLoop peers myName st evs).1.printed then 0 else 1) ≤
      (if st.printed then 0 else 1) := by
  induction evs generalizing st with
  | nil => simp [runLoop]
  | cons ev evs ih =>
    simp only [runLoop]
    rw [List.countP_append]
    have h1 := loopIter_key peers myName st ev
    have h2 := ih (loopIter peers myName st ev).1
    omega

/-- C8. The heartbeat peer prints the READY line at most once per run: over
every schedule of receive events (and however often the all-peers-online
condition holds), the output of the main loop started from the initial
state contains at most one READY, because the emission is guarded by the
`all_online_printed` flag set at the first print. -/
theorem ready_printed_once (peers : List HostName) (myName : HostName)
    (evs : List (Option (List Char))) :
    ((runLoop peers myName (initPeerState peers) evs).2).countP isReady ≤ 1 := by
  have h := runLoop_ready_bound peers myName (initPeerState peers) evs
  rw [show (initPeerState peers).printed = false from rfl] at h
  simp only [if_neg Bool.false_ne_true] at h
  omega

theorem sendPings_no_self (peers : List HostName) (online : List Bool) (me : HostName) :
    ∀ d ∈ (sendPings peers online me).2, d ≠ me := by
  induction peers generalizing online with
  | nil =>
    intro d hd
    rw [show (sendPings [] online me).2 = [] from rfl] at hd
    cases hd
  | cons p ps ih =>
    cases online with
    | nil =>
      intro d hd
      rw [show (sendPings (p :: ps) [] me).2 = [] from rfl] at hd
      cases hd
    | cons b bs =>
      intro d hd
      cases b with
      | true =>
        rw [show (sendPings (p :: ps) (true :: bs) me).2 = (sendPings ps bs me).2
          from rfl] at hd
        exact ih bs d hd
      | false =>
        by_cases hp : p = me
        · rw [show (sendPings (p :: ps) (false :: bs) me).2 =
            (if p = me then ((true : Bool) :: (sendPings ps bs me).1, (sendPings ps bs me).2)
             else ((false : Bool) :: (sendPings ps bs me).1, p :: (sendPings ps bs me).2)).2
            from rfl, if_pos hp] at hd
          exact ih bs d hd
        · rw [show (sendPings (p :: ps) (false :: bs) me).2 =
            (if p = me then ((true : Bool) :: (sendPings ps bs me).1, (sendPings ps bs me).2)
             else ((false : Bool) :: (sendPings ps bs me).1, p :: (sendPings ps bs me).2)).2
            from rfl, if_neg hp] at hd
          rcases List.mem_cons.mp hd with rfl | hd'
          · exact hp
          · exact ih bs d hd'

theorem sendPings_marks_self (peers : List HostName) (online : List Bool) (me : HostName) :
    ∀ i, i < peers.length → i < online.length → peers.getD i [] = me →
      ((sendPings peers online me).1).getD i false = true := by
  induction peers generalizing online with
  | nil => intro i hi _ _; exact absurd hi (by simp)
  | cons p ps ih =>
    cases online with
    | nil => intro i _ hi _; exact absurd hi (by simp)
    | cons b bs =>
      intro i hi1 hi2 hname
      cases b with
      | true =>
        rw [show (sendPings (p :: ps) (true :: bs) me).1 =
          (true : Bool) :: (sendPings ps bs me).1 from rfl]
        cases i with
        | zero => rfl
        | succ i =>
          exact ih bs i (by simpa using hi1) (by simpa using hi2) (by simpa using hname)
      | false =>
        by_cases hp : p = me
        · rw [show (sendPings (p :: ps) (false :: bs) me).1 =
            (if p = me then ((true : Bool) :: (sendPings ps bs me).1, (sendPings ps bs me).2)
             else ((false : Bool) :: (sendPings ps bs me).1, p :: (sendPings ps bs me).2)).1
            from rfl, if_pos hp]
          cases i with
          | zero => rfl
          | succ i =>
            exact ih bs i (by simpa using hi1) (by simpa using hi2) (by simpa using hname)
        · rw [show (sendPings (p :: ps) (false :: bs) me).1 =
            (if p = me then ((true : Bool) :: (sendPings ps bs me).1, (sendPings ps bs me).2)
             else ((false : Bool) :: (sendPings ps bs me).1, p :: (sendPings ps bs me).2)).1
            from rfl, if_neg hp]
          cases i with
          | zero => exact absurd hname hp
          | succ i =>
            exact ih bs i (by simpa using hi1) (by simpa using hi2) (by simpa using hname)

/-- C9. The heartbeat peer never pings itself: its own hostname is never
among the ping destinations of the send phase, and the peer-list entry
equal to its own hostname is marked online locally instead, so it counts
toward the all-online condition without any network exchange. -/
theorem no_self_ping (peers : List HostName) (online : List Bool) (myName : HostName) :
    (∀ d ∈ (sendPings peers online myName).2, d ≠ myName) ∧
    (∀ i, i < peers.length → i < online.length → peers.getD i [] = myName →
      ((sendPings peers online myName).1).getD i false = true) :=
  ⟨sendPings_no_self peers online myName, sendPings_marks_self peers online myName⟩

/-- Witness for C9 on the peer list [a, m] with own hostname m: the only
ping goes to a, and entry 1 (the self entry) comes out marked online. -/
theorem no_self_ping_witness :
    (['a'] : HostName) ≠ ['m'] ∧
    ((sendPings [['a'], ['m']] [false, false] ['m']).1).getD 1 false = true :=
  ⟨(no_self_ping [['a'], ['m']] [false, false] ['m']).1 ['a'] (by decide),
   (no_self_ping [['a'], ['m']] [false, false] ['m']).2 1 (by decide) (by decide)
     (by decide)⟩

theorem markPong_not_mem (peers : List HostName) (online : List Bool) (their : HostName)
    (h : their ∉ peers) : markPong peers online their = online := by
  induction peers generalizing online with
  | nil => rfl
  | cons p ps ih =>
    cases online with
    | nil => rfl
    | cons b bs =>
      have hp : p ≠ their := fun hpe => h (hpe ▸ List.mem_cons_self _ _)
      rw [show markPong (p :: ps) (b :: bs) their =
        (if p = their then (if b then b else true) else b) :: markPong ps bs their
        from rfl, if_neg hp, ih bs (fun hmem => h (List.mem_cons_of_mem _ hmem))]

/-- C10. Unknown input is absorbed: a pong naming a hostname that is not in
the peers list, and any message starting with neither "ping:" nor "pong:",
leave the online array completely unchanged. -/
theorem unknown_input_no_change (peers : List HostName) (online : List Bool)
    (buf : List Char) :
    (pingPrefix.isPrefixOf buf = false → pongPrefix.isPrefixOf buf = false →
      (handleMessage peers online buf).1 = online) ∧
    (pongPrefix.isPrefixOf buf = true → buf.drop 5 ∉ peers →
      (handleMessage peers online buf).1 = online) := by
  constructor
  · intro h1 h2
    unfold handleMessage
    rw [if_neg (by rw [h1]; exact Bool.false_ne_true),
        if_neg (by rw [h2]; exact Bool.false_ne_true)]
  · intro h2 hmem
    unfold handleMessage
    by_cases h1 : pingPrefix.isPrefixOf buf
    · rw [if_pos h1]
    · rw [if_neg h1, if_pos h2]
      exact markPong_not_mem peers online (buf.drop 5) hmem

/-- Witness for C10: the message "hi" and a pong from the unknown host z
both leave the online array [false] untouched. -/
theorem unknown_input_no_change_witness :
    (handleMessage [['a']] [false] ['h', 'i']).1 = [false] ∧
    (handleMessage [['a']] [false] ['p', 'o', 'n', 'g', ':', 'z']).1 = [false] :=
  ⟨(unknown_input_no_change [['a']] [false] ['h', 'i']).1 (by decide) (by decide),
   (unknown_input_no_change [['a']] [false] ['p', 'o', 'n', 'g', ':', 'z']).2
     (by decide) (by decide)⟩
